import Mathlib

/-!
Verification of the aspect-extraction post-processing pipeline
(`extractor.py` of `aspect-extraction-from-scientific-texts`).

The Python class `AspectExtractor` is shallowly embedded here:
* the punctuation tables `PAIRED_L2R` / `PAIRED_R2L` / `SYMM_QUOTES` /
  `UNPAIRED_PUNCT` become lookup functions over the same four bracket
  pairs and the quote character;
* `balance_parentheses`, `detokenize`, `process`, `inflect` and the
  span-grouping loop of `extract_aspects` become executable Lean
  functions over `List String`;
* Python exceptions (`IndexError`) are modelled by `Option`: a function
  returns `none` exactly where the Python code raises.

Python string/list idioms are modelled explicitly:
* `x in s` for strings is a substring test (`isSubstr`),
* `s.split('|')` is `splitPipe`,
* `s.startswith(p)` is `pyStartswith`,
* `list.remove(x)` removes the first occurrence (`List.erase`),
* `list.insert(0, x)` is `List.cons`.
-/

namespace AspectExtractor

/-- The opening guillemet quote character of the source's bracket table
(code point 171). -/
def laquo : String := String.mk [Char.ofNat 171]

/-- The closing guillemet quote character of the source's bracket table
(code point 187). -/
def raquo : String := String.mk [Char.ofNat 187]

/-- `PAIRED_L2R`, the dict of the four bracket pairs `()`, `[]`, the
guillemet pair and the curly pair, as a lookup: `toRightOpt l` is the right
counterpart of a left bracket, else `none`. -/
def toRightOpt (t : String) : Option String :=
  if t = "(" then some ")"
  else if t = "[" then some "]"
  else if t = laquo then some raquo
  else if t = "\x7b" then some "\x7d"
  else none

/-- `PAIRED_R2L` (the inverse dict): left counterpart of a right bracket. -/
def toLeftOpt (t : String) : Option String :=
  if t = ")" then some "("
  else if t = "]" then some "["
  else if t = raquo then some laquo
  else if t = "\x7d" then some "\x7b"
  else none

/-- `token in self.PAIRED_L2R` (dict-key membership). -/
def isLKey (t : String) : Bool := (toRightOpt t).isSome

/-- `token in self.PAIRED_R2L` (dict-key membership). -/
def isRKey (t : String) : Bool := (toLeftOpt t).isSome

/-- `self.PAIRED_L2R.get(p, p)`: right counterpart with identity default. -/
def toRight (t : String) : String := (toRightOpt t).getD t

/-- `self.PAIRED_R2L.get(p, p)`: left counterpart with identity default. -/
def toLeft (t : String) : String := (toLeftOpt t).getD t

/-- `SYMM_QUOTES = ['"']`. -/
def SYMM_QUOTES : List String := ["\""]

/-- `UNPAIRED_PUNCT = ".,:;!?%^"`. -/
def UNPAIRED_PUNCT : String := ".,:;!?%^"

/-- Python's `needle in haystack` on strings: contiguous substring test. -/
def isSubstr (needle haystack : String) : Bool :=
  haystack.data.tails.any (fun t => needle.data.isPrefixOf t)

/-- Helper for `splitPipe`: accumulates the current chunk (reversed). -/
def splitPipeGo (acc : List Char) : List Char → List String
  | [] => [String.mk acc.reverse]
  | c :: cs =>
    if c = '|' then String.mk acc.reverse :: splitPipeGo [] cs
    else splitPipeGo (c :: acc) cs

/-- Python's `s.split('|')` (used on label strings in `extract_aspects`). -/
def splitPipe (s : String) : List String := splitPipeGo [] s.data

/-- Python's `s.startswith(p)` (used on part-of-speech tags in `inflect`). -/
def pyStartswith (s p : String) : Bool := p.data.isPrefixOf s.data

/-! ## Bracket balancer (`balance_parentheses`, extractor.py lines 116-143)

The scan keeps two Python lists used as stacks via `insert(0, ·)` /
`remove(·)`; we keep the same representation: the head of the list is the
most recently pushed element, `List.erase` removes the first (= most
recent) occurrence, exactly like `list.remove`. -/

/-- One iteration of the scan loop of `balance_parentheses`: the `if`/`elif`
chain over `(left_stack, right_stack)` for one token. -/
def balStep (st : List String × List String) (token : String) :
    List String × List String :=
  let ls := st.1
  let rs := st.2
  if token ∈ SYMM_QUOTES ∧ token ∈ ls then (ls.erase token, rs)
  else if isLKey token ∨ token ∈ SYMM_QUOTES then (token :: ls, rs)
  else if isRKey token ∧ toLeft token ∈ ls then (ls.erase (toLeft token), rs)
  else if isRKey token ∧ ¬ toLeft token ∈ ls then (ls, token :: rs)
  else (ls, rs)

/-- The whole scan loop: final `(left_stack, right_stack)` after the `for`. -/
def scanStacks (text : List String) : List String × List String :=
  text.foldl balStep ([], [])

/-- `balance_parentheses`: scan, then `text.insert(0, R2L.get(p, p))` for each
entry of `right_stack`, then `text.append(L2R.get(p, p))` for each entry of
`left_stack`. -/
def balance_parentheses (text : List String) : List String :=
  let st := scanStacks text
  (st.1).foldl (fun acc p => acc ++ [toRight p])
    ((st.2).foldl (fun acc p => toLeft p :: acc) text)

/-! ## Detokenizer (`detokenize`, extractor.py lines 98-114) -/

/-- The loop of `detokenize`, carrying the pending separator `sep`.
Tokens that are substrings of `UNPAIRED_PUNCT` (Python's `token in ".,:;!?%^"`)
or right brackets are appended bare and leave `sep` untouched; any other token
is appended as `sep + token` and resets `sep` to `" "`, or to `""` when the
token is a left bracket. -/
def detokGo (sep : String) : List String → String
  | [] => ""
  | t :: ts =>
    if isSubstr t UNPAIRED_PUNCT ∨ isRKey t then t ++ detokGo sep ts
    else (sep ++ t) ++ detokGo (if isLKey t then "" else " ") ts

/-- `detokenize`: join with the separator state machine, initial `sep = ''`. -/
def detokenize (text : List String) : String := detokGo "" text

/-! ## Mention post-processor (`process`, extractor.py lines 145-156)

`normalize` needs the external spacy dependency parser, so `process` is
parameterized by an arbitrary normalizer function `norm` together with the
`do_normalize` flag; everything after that step is embedded from the source. -/

/-- Python's `str.upper()` on one character, for the alphabets this repository
processes (ASCII letters and Russian Cyrillic, including ё). -/
def pyUpper (c : Char) : Char :=
  if 'a' ≤ c ∧ c ≤ 'z' then Char.ofNat (c.toNat - 32)
  else if 'а' ≤ c ∧ c ≤ 'я' then Char.ofNat (c.toNat - 32)
  else if c = 'ё' then 'Ё'
  else c

/-- `text[0].upper() + text[1:]`; `none` models the `IndexError` raised on an
empty string. -/
def capitalizeFirst (s : String) : Option String :=
  match s.data with
  | [] => none
  | c :: cs => some (String.mk (pyUpper c :: cs))

/-- `process`: optional normalization, then balancing, detokenization and
capitalization of the first character. -/
def process (norm : List String → List String) (doNorm : Bool)
    (text : List String) : Option String :=
  capitalizeFirst (detokenize (balance_parentheses
    (if doNorm then norm text else text)))

/-! ## Span decoder (`extract_aspects` loop, extractor.py lines 164-179)

`extracted_aspects` is a `defaultdict(list)` whose iteration order is key
insertion order; it is embedded as an association list
`List (String × List (List String))` mapping each category to its list of
spans (each span a token list), keys in first-insertion order and spans and
tokens in detection order. -/

/-- The association-list state of the decoder. -/
abbrev AspectMap := List (String × List (List String))

/-- The body of `for aspect in aspects_for_token`: when `startNew` is true,
`extracted_aspects[aspect].append([])` (inserting the key at the end on first
touch); then `extracted_aspects[aspect][-1].append(tok)`. `none` models the
`IndexError` raised by `[-1]` when the category has no open span. -/
def addSpanTok : AspectMap → String → String → Bool → Option AspectMap
  | [], a, t, startNew =>
    if startNew then some [(a, [[t]])] else none
  | (k, spans) :: rest, a, t, startNew =>
    if k = a then
      if startNew then some ((k, spans ++ [[t]]) :: rest)
      else
        match spans.getLast? with
        | none => none
        | some last => some ((k, spans.dropLast ++ [last ++ [t]]) :: rest)
    else (addSpanTok rest a t startNew).map (fun r => (k, spans) :: r)

/-- `aspects_for_token = cur_label.split('|')`, emptied when it contains the
sentinel `"O"`. -/
def splitAspects (lbl : String) : List String :=
  let parts := splitPipe lbl
  if "O" ∈ parts then [] else parts

/-- Processing of one `(cur_token, cur_label)` pair: iterate over the
effective aspects, starting a new span for `aspect` exactly when
`aspect not in prev_label` (Python substring test on the raw previous label). -/
def decodeStep (prevLabel : String) (m : AspectMap) (tok lbl : String) :
    Option AspectMap :=
  (splitAspects lbl).foldlM
    (fun acc aspect => addSpanTok acc aspect tok (!(isSubstr aspect prevLabel)))
    m

/-- The `for i, (cur_token, cur_label) in enumerate(result)` loop, threading
the previous label (`('', '')` before the first token). -/
def extractGo (prevLabel : String) (m : AspectMap) :
    List (String × String) → Option AspectMap
  | [] => some m
  | (tok, lbl) :: rest =>
    match decodeStep prevLabel m tok lbl with
    | none => none
    | some m1 => extractGo lbl m1 rest

/-- The span-grouping part of `extract_aspects` (lines 164-177): the value of
`extracted_aspects` after the loop, `none` when the loop raises `IndexError`. -/
def extract_aspect_spans (result : List (String × String)) : Option AspectMap :=
  extractGo "" [] result

/-- Full `extract_aspects` (lines 164-179): the grouping loop followed by the
dict comprehension mapping `process` over every mention of every category. -/
def extract_aspects (norm : List String → List String) (doNorm : Bool)
    (result : List (String × String)) : Option (List (String × List String)) :=
  match extract_aspect_spans result with
  | none => none
  | some m =>
    m.mapM (fun kv =>
      match kv.2.mapM (process norm doNorm) with
      | none => none
      | some ps => some (kv.1, ps))

/-! ## Inflector wrapper (`inflect`, extractor.py lines 47-65)

`pymorphy2.MorphAnalyzer.parse` and `Parse.inflect` are external; a parse is
embedded as its part-of-speech tag (`tag.POS`, possibly `None`) together with
its `inflect` method, a function from the requested grammemes to the inflected
word (or `None`). `inflect` receives the parse list as an argument. -/

/-- An external pymorphy2 parse: `tag.POS` and the `inflect` method. -/
structure MorphParse where
  pos : Option String
  forms : List String → Option String

/-- `any(parse.tag.POS.startswith(prefix) for prefix in pos if parse.tag.POS)`. -/
def posMatches (p : MorphParse) (pos : List String) : Bool :=
  match p.pos with
  | none => false
  | some tag => pos.any (fun pre => pyStartswith tag pre)

/-- The parse-selection code of `inflect`: `parse = parses[0]` followed by the
`for parse in parses` loop with `break` on the first match.  After a loop that
never breaks, the Python loop variable holds the *last* parse, so the chosen
parse is the first match if one exists, else the last parse; `none` models the
`IndexError` of `parses[0]` on an empty parse list. -/
def chooseParse (parses : List MorphParse) (pos : List String) :
    Option MorphParse :=
  match parses with
  | [] => none
  | p :: ps =>
    match (p :: ps).find? (fun q => posMatches q pos) with
    | some q => some q
    | none => some ((p :: ps).getLastD p)

/-- `inflect`: choose a parse, then `parse.inflect(grammemes)`, falling back
to the original token when no such form exists. -/
def inflect (parses : List MorphParse) (token : String) (pos : List String)
    (grammemes : List String) : Option String :=
  match chooseParse parses pos with
  | none => none
  | some parse =>
    match parse.forms grammemes with
    | some w => some w
    | none => some token

/-! ## Analysis helpers for the balancer scan

`balStep` is split into its action on the left stack (`lsStep`) and the
tokens it pushes onto the right stack (`pushesR`, `pushedR`); the
decomposition is proved below (`balStep_decomp`, `scan_decomp`). -/

/-- The left-stack component of one `balStep` iteration. -/
def lsStep (ls : List String) (token : String) : List String :=
  if token ∈ SYMM_QUOTES ∧ token ∈ ls then ls.erase token
  else if isLKey token ∨ token ∈ SYMM_QUOTES then token :: ls
  else if isRKey token ∧ toLeft token ∈ ls then ls.erase (toLeft token)
  else ls

/-- Whether one `balStep` iteration pushes the token onto the right stack. -/
def pushesR (ls : List String) (token : String) : Bool :=
  if token ∈ SYMM_QUOTES ∧ token ∈ ls then false
  else if isLKey token ∨ token ∈ SYMM_QUOTES then false
  else if isRKey token ∧ toLeft token ∈ ls then false
  else if isRKey token ∧ ¬ toLeft token ∈ ls then true
  else false

/-- The left stack after scanning `text` from initial stack `ls`. -/
def scanL (ls : List String) (text : List String) : List String :=
  text.foldl lsStep ls

/-- The right stack built while scanning `text` from left stack `ls`
(head = most recently pushed token). -/
def pushedR (ls : List String) : List String → List String
  | [] => []
  | t :: ts => pushedR (lsStep ls t) ts ++ (if pushesR ls t then [t] else [])

/-! ## Decoder lookup -/

/-- Lookup of a category's span list in the decoder state (Python dict keys
are unique, so first match is the entry). -/
def mentionsOf (m : AspectMap) (c : String) : List (List String) :=
  match m with
  | [] => []
  | (k, spans) :: rest => if k = c then spans else mentionsOf rest c

/-! ## Spec-side models used to compare against the code

`detokGoSpecC7` follows the spec sentence "the next separator flag is reset
to empty after any left-bracket token and to a single space otherwise
(i.e. after any other token, including punctuation tokens)" word for word;
`detokSpec` is the separator state machine with the reset rule the code
actually implements (no reset after punctuation/right-bracket tokens). -/

/-- Modelled from the spec sentence of claim C7: the separator flag is reset
after *every* token (empty after a left bracket, single space otherwise). -/
def detokGoSpecC7 (sep : String) : List String → String
  | [] => ""
  | t :: ts =>
    if isSubstr t UNPAIRED_PUNCT ∨ isRKey t then
      t ++ detokGoSpecC7 (if isLKey t then "" else " ") ts
    else (sep ++ t) ++ detokGoSpecC7 (if isLKey t then "" else " ") ts

/-- The claim-C7 detokenizer with initial empty separator. -/
def detokenize_specC7 (text : List String) : String := detokGoSpecC7 "" text

/-- Separator actually emitted before a token: empty for punctuation and
right brackets, the pending flag otherwise. -/
def emittedSep (sep t : String) : String :=
  if isSubstr t UNPAIRED_PUNCT ∨ isRKey t then "" else sep

/-- Separator flag after a token: unchanged by punctuation and right
brackets, empty after a left bracket, a single space otherwise. -/
def nextSep (sep t : String) : String :=
  if isSubstr t UNPAIRED_PUNCT ∨ isRKey t then sep
  else if isLKey t then "" else " "

/-- The detokenizer written as the `emittedSep`/`nextSep` state machine. -/
def detokSpec (sep : String) : List String → String
  | [] => ""
  | t :: ts => emittedSep sep t ++ t ++ detokSpec (nextSep sep t) ts

/-! ## Concrete external parses used to evaluate `inflect` -/

/-- A noun parse whose every inflection is `"w1"`. -/
def parseNoun : MorphParse := ⟨some "NOUN", fun _ => some "w1"⟩

/-- A verb parse whose every inflection is `"w2"`. -/
def parseVerb : MorphParse := ⟨some "VERB", fun _ => some "w2"⟩

/-- A noun parse admitting no inflected form at all. -/
def parseNoForm : MorphParse := ⟨some "NOUN", fun _ => none⟩

/-! ## Theorems -/

/-! ## Facts about the bracket tables -/

lemma toRightOpt_eq_some {l r : String} (h : toRightOpt l = some r) :
    l = "(" ∧ r = ")" ∨ l = "[" ∧ r = "]" ∨ l = laquo ∧ r = raquo ∨ l = "\x7b" ∧ r = "\x7d" := by
  unfold toRightOpt at h
  split_ifs at h <;> simp_all

lemma toLeftOpt_eq_some {r l : String} (h : toLeftOpt r = some l) :
    r = ")" ∧ l = "(" ∨ r = "]" ∧ l = "[" ∨ r = raquo ∧ l = laquo ∨ r = "\x7d" ∧ l = "\x7b" := by
  unfold toLeftOpt at h
  split_ifs at h <;> simp_all

lemma pair_inverse {l r : String} (h : toRightOpt l = some r) : toLeftOpt r = some l := by
  rcases toRightOpt_eq_some h with ⟨h1, h2⟩ | ⟨h1, h2⟩ | ⟨h1, h2⟩ | ⟨h1, h2⟩ <;>
    subst h1 <;> subst h2 <;> decide

lemma pair_inverse' {r l : String} (h : toLeftOpt r = some l) : toRightOpt l = some r := by
  rcases toLeftOpt_eq_some h with ⟨h1, h2⟩ | ⟨h1, h2⟩ | ⟨h1, h2⟩ | ⟨h1, h2⟩ <;>
    subst h1 <;> subst h2 <;> decide

lemma lkey_facts {l r : String} (h : toRightOpt l = some r) :
    l ≠ "\"" ∧ r ≠ "\"" ∧ isLKey l = true ∧ isRKey l = false ∧
    isLKey r = false ∧ isRKey r = true ∧ l ≠ r := by
  rcases toRightOpt_eq_some h with ⟨h1, h2⟩ | ⟨h1, h2⟩ | ⟨h1, h2⟩ | ⟨h1, h2⟩ <;>
    subst h1 <;> subst h2 <;> decide

lemma rkey_toLeft {t tl : String} (h : toLeftOpt t = some tl) : toLeft t = tl := by
  simp [toLeft, h]

lemma lkey_toRight {t tr : String} (h : toRightOpt t = some tr) : toRight t = tr := by
  simp [toRight, h]

lemma mem_symm_iff {t : String} : t ∈ SYMM_QUOTES ↔ t = "\"" := by
  simp [SYMM_QUOTES]

lemma lkey_ne_quote {t : String} (h : isLKey t = true) : t ≠ "\"" := by
  cases htr : toRightOpt t with
  | none => simp [isLKey, htr] at h
  | some r => exact (lkey_facts htr).1

lemma rkey_ne_quote {t : String} (h : isRKey t = true) : t ≠ "\"" := by
  cases htl : toLeftOpt t with
  | none => simp [isRKey, htl] at h
  | some l =>
    have := lkey_facts (pair_inverse' htl)
    exact this.2.1

lemma rkey_not_lkey {t : String} (h : isRKey t = true) : isLKey t = false := by
  cases htl : toLeftOpt t with
  | none => simp [isRKey, htl] at h
  | some l => exact (lkey_facts (pair_inverse' htl)).2.2.2.2.1

lemma toLeft_lkey_of_rkey {t : String} (h : isRKey t = true) :
    isLKey (toLeft t) = true := by
  cases htl : toLeftOpt t with
  | none => simp [isRKey, htl] at h
  | some l =>
    rw [rkey_toLeft htl]
    exact (lkey_facts (pair_inverse' htl)).2.2.1

lemma toRight_rkey_of_lkey {t : String} (h : isLKey t = true) :
    isRKey (toRight t) = true := by
  cases htr : toRightOpt t with
  | none => simp [isLKey, htr] at h
  | some r =>
    rw [lkey_toRight htr]
    exact (lkey_facts htr).2.2.2.2.2.1

/-! ## Decomposition of the balancer scan -/

lemma balStep_decomp (ls rs : List String) (t : String) :
    balStep (ls, rs) t = (lsStep ls t, if pushesR ls t then t :: rs else rs) := by
  by_cases h1 : t ∈ SYMM_QUOTES ∧ t ∈ ls
  · simp [balStep, lsStep, pushesR, h1]
  · by_cases h2 : isLKey t ∨ t ∈ SYMM_QUOTES
    · simp [balStep, lsStep, pushesR, h1, h2]
    · by_cases h3 : isRKey t ∧ toLeft t ∈ ls
      · simp [balStep, lsStep, pushesR, h1, h2, h3]
      · by_cases h4 : isRKey t ∧ ¬ toLeft t ∈ ls
        · simp [balStep, lsStep, pushesR, h1, h2, h3, h4]
        · simp [balStep, lsStep, pushesR, h1, h2, h3, h4]

lemma scan_decomp :
    ∀ (text : List String) (ls rs : List String),
      text.foldl balStep (ls, rs) = (scanL ls text, pushedR ls text ++ rs)
  | [], ls, rs => by simp [scanL, pushedR]
  | t :: ts, ls, rs => by
    rw [List.foldl_cons, balStep_decomp, scan_decomp ts]
    simp only [scanL, List.foldl_cons, pushedR]
    by_cases hp : pushesR ls t <;> simp [hp]

lemma scanStacks_eq (x : List String) :
    scanStacks x = (scanL [] x, pushedR [] x) := by
  simp [scanStacks, scan_decomp]

lemma foldl_cons_toLeft :
    ∀ (rs text : List String),
      rs.foldl (fun acc p => toLeft p :: acc) text = (rs.map toLeft).reverse ++ text
  | [], text => by simp
  | p :: ps, text => by
    rw [List.foldl_cons, foldl_cons_toLeft ps]
    simp

lemma foldl_append_toRight :
    ∀ (ls text : List String),
      ls.foldl (fun acc p => acc ++ [toRight p]) text = text ++ ls.map toRight
  | [], text => by simp
  | p :: ps, text => by
    rw [List.foldl_cons, foldl_append_toRight ps]
    simp

lemma balance_closed (x : List String) :
    balance_parentheses x
      = ((pushedR [] x).map toLeft).reverse ++ x ++ (scanL [] x).map toRight := by
  simp only [balance_parentheses, scanStacks_eq, foldl_cons_toLeft, foldl_append_toRight]

/-! ## Entries of the stacks -/

lemma lsStep_entries {ls : List String} {t a : String} (h : a ∈ lsStep ls t) :
    a ∈ ls ∨ isLKey a = true ∨ a = "\"" := by
  unfold lsStep at h
  split_ifs at h with h1 h2 h3
  · exact Or.inl (List.mem_of_mem_erase h)
  · rcases List.mem_cons.mp h with rfl | h
    · rcases h2 with h2 | h2
      · exact Or.inr (Or.inl h2)
      · exact Or.inr (Or.inr (mem_symm_iff.mp h2))
    · exact Or.inl h
  · exact Or.inl (List.mem_of_mem_erase h)
  · exact Or.inl h

lemma scanL_entries :
    ∀ (text ls : List String) (a : String), a ∈ scanL ls text →
      a ∈ ls ∨ isLKey a = true ∨ a = "\""
  | [], ls, a, h => Or.inl h
  | t :: ts, ls, a, h => by
    rcases scanL_entries ts (lsStep ls t) a h with h' | h'
    · rcases lsStep_entries h' with h'' | h''
      · exact Or.inl h''
      · exact Or.inr h''
    · exact Or.inr h'

lemma pushesR_true {ls : List String} {t : String} (h : pushesR ls t = true) :
    isRKey t = true ∧ toLeft t ∉ ls := by
  unfold pushesR at h
  split_ifs at h with h1 h2 h3 h4
  · exact ⟨h4.1, h4.2⟩

lemma pushedR_entries :
    ∀ (text ls : List String) (p : String), p ∈ pushedR ls text → isRKey p = true
  | [], _, _, h => by simp [pushedR] at h
  | t :: ts, ls, p, h => by
    simp only [pushedR] at h
    rcases List.mem_append.mp h with h' | h'
    · exact pushedR_entries ts (lsStep ls t) p h'
    · by_cases hp : pushesR ls t
      · simp [hp] at h'
        subst h'
        exact (pushesR_true hp).1
      · simp [hp] at h'

/-! ## Evaluation of one scan step by token kind -/

lemma lsStep_quote_mem {ls : List String} (h : "\"" ∈ ls) :
    lsStep ls "\"" = ls.erase "\"" := by
  simp [lsStep, SYMM_QUOTES, h]

lemma lsStep_quote_not_mem {ls : List String} (h : "\"" ∉ ls) :
    lsStep ls "\"" = "\"" :: ls := by
  simp [lsStep, SYMM_QUOTES, h]

lemma pushesR_quote (ls : List String) : pushesR ls "\"" = false := by
  by_cases h : "\"" ∈ ls <;> simp [pushesR, SYMM_QUOTES, h]

lemma lsStep_lkey {ls : List String} {t : String} (h : isLKey t = true) :
    lsStep ls t = t :: ls := by
  have hq := lkey_ne_quote h
  simp [lsStep, SYMM_QUOTES, h, hq]

lemma pushesR_lkey {ls : List String} {t : String} (h : isLKey t = true) :
    pushesR ls t = false := by
  have hq := lkey_ne_quote h
  simp [pushesR, SYMM_QUOTES, h, hq]

lemma lsStep_rkey_mem {ls : List String} {t tl : String}
    (h : toLeftOpt t = some tl) (hm : tl ∈ ls) :
    lsStep ls t = ls.erase tl := by
  have hr : isRKey t = true := by simp [isRKey, h]
  have hq := rkey_ne_quote hr
  have hl := rkey_not_lkey hr
  simp [lsStep, SYMM_QUOTES, hq, hl, hr, rkey_toLeft h, hm]

lemma lsStep_rkey_not_mem {ls : List String} {t tl : String}
    (h : toLeftOpt t = some tl) (hm : tl ∉ ls) :
    lsStep ls t = ls := by
  have hr : isRKey t = true := by simp [isRKey, h]
  have hq := rkey_ne_quote hr
  have hl := rkey_not_lkey hr
  simp [lsStep, SYMM_QUOTES, hq, hl, hr, rkey_toLeft h, hm]

lemma pushesR_rkey_mem {ls : List String} {t tl : String}
    (h : toLeftOpt t = some tl) (hm : tl ∈ ls) :
    pushesR ls t = false := by
  have hr : isRKey t = true := by simp [isRKey, h]
  have hq := rkey_ne_quote hr
  have hl := rkey_not_lkey hr
  simp [pushesR, SYMM_QUOTES, hq, hl, hr, rkey_toLeft h, hm]

lemma pushesR_rkey_not_mem {ls : List String} {t tl : String}
    (h : toLeftOpt t = some tl) (hm : tl ∉ ls) :
    pushesR ls t = true := by
  have hr : isRKey t = true := by simp [isRKey, h]
  have hq := rkey_ne_quote hr
  have hl := rkey_not_lkey hr
  simp [pushesR, SYMM_QUOTES, hq, hl, hr, rkey_toLeft h, hm]

lemma lsStep_other {ls : List String} {t : String}
    (h1 : isLKey t = false) (h2 : isRKey t = false) (hq : t ≠ "\"") :
    lsStep ls t = ls := by
  simp [lsStep, SYMM_QUOTES, h1, h2, hq]

lemma pushesR_other {ls : List String} {t : String}
    (h1 : isLKey t = false) (h2 : isRKey t = false) (hq : t ≠ "\"") :
    pushesR ls t = false := by
  simp [pushesR, SYMM_QUOTES, h1, h2, hq]

lemma scanL_cons (ls : List String) (t : String) (ts : List String) :
    scanL ls (t :: ts) = scanL (lsStep ls t) ts := rfl

lemma pushedR_cons (ls : List String) (t : String) (ts : List String) :
    pushedR ls (t :: ts)
      = pushedR (lsStep ls t) ts ++ (if pushesR ls t then [t] else []) := by
  simp [pushedR]

lemma pushedR_cons_false {ls : List String} {t : String} (ts : List String)
    (h : pushesR ls t = false) :
    pushedR ls (t :: ts) = pushedR (lsStep ls t) ts := by
  rw [pushedR_cons, h]
  simp

lemma pushedR_cons_true {ls : List String} {t : String} (ts : List String)
    (h : pushesR ls t = true) :
    pushedR ls (t :: ts) = pushedR (lsStep ls t) ts ++ [t] := by
  rw [pushedR_cons, h]
  simp

/-! ## Count invariant of the scan, per bracket pair -/

lemma countInv {l r : String} (hpair : toRightOpt l = some r) :
    ∀ (text ls : List String),
      List.count l (scanL ls text) + List.count r text
        = List.count l ls + List.count l text + List.count r (pushedR ls text)
  | [], ls => by simp [scanL, pushedR]
  | t :: ts, ls => by
    have hf := lkey_facts hpair
    rw [scanL_cons]
    by_cases hq : t = "\""
    · subst hq
      have hcl : List.count l ("\"" :: ts) = List.count l ts :=
        List.count_cons_of_ne hf.1 ts
      have hcr : List.count r ("\"" :: ts) = List.count r ts :=
        List.count_cons_of_ne hf.2.1 ts
      rw [pushedR_cons_false ts (pushesR_quote ls), hcl, hcr]
      by_cases hm : "\"" ∈ ls
      · have IH := countInv hpair ts (ls.erase "\"")
        rw [lsStep_quote_mem hm]
        have he : List.count l (ls.erase "\"") = List.count l ls :=
          List.count_erase_of_ne hf.1 ls
        omega
      · have IH := countInv hpair ts ("\"" :: ls)
        rw [lsStep_quote_not_mem hm]
        have he : List.count l ("\"" :: ls) = List.count l ls :=
          List.count_cons_of_ne hf.1 ls
        omega
    · cases htr : toRightOpt t with
      | some tr =>
        have hL : isLKey t = true := by simp [isLKey, htr]
        have htne : r ≠ t := by
          intro he
          subst he
          exact absurd hL (by simp [hf.2.2.2.2.1])
        have hcr : List.count r (t :: ts) = List.count r ts :=
          List.count_cons_of_ne htne ts
        rw [pushedR_cons_false ts (pushesR_lkey hL), lsStep_lkey hL, hcr]
        have IH := countInv hpair ts (t :: ls)
        by_cases htl : t = l
        · subst htl
          have h1 : List.count t (t :: ls) = List.count t ls + 1 := by
            simp [List.count_cons]
          have h2 : List.count t (t :: ts) = List.count t ts + 1 := by
            simp [List.count_cons]
          rw [h2]
          omega
        · have hln : l ≠ t := fun he => htl he.symm
          have h1 : List.count l (t :: ls) = List.count l ls :=
            List.count_cons_of_ne hln ls
          have h2 : List.count l (t :: ts) = List.count l ts :=
            List.count_cons_of_ne hln ts
          rw [h2]
          omega
      | none =>
        cases htl : toLeftOpt t with
        | some tl =>
          have hR : isRKey t = true := by simp [isRKey, htl]
          have htnl : l ≠ t := by
            intro he
            subst he
            rw [hf.2.2.2.1] at hR
            exact absurd hR (by simp)
          have hcl : List.count l (t :: ts) = List.count l ts :=
            List.count_cons_of_ne htnl ts
          have hiff : t = r ↔ tl = l := by
            constructor
            · intro he
              subst he
              have hinv := pair_inverse hpair
              rw [hinv] at htl
              exact (Option.some_inj.mp htl).symm
            · intro he
              subst he
              have hinv := pair_inverse' htl
              rw [hpair] at hinv
              exact (Option.some_inj.mp hinv).symm
          by_cases hm : tl ∈ ls
          · rw [pushedR_cons_false ts (pushesR_rkey_mem htl hm), lsStep_rkey_mem htl hm, hcl]
            have IH := countInv hpair ts (ls.erase tl)
            by_cases htr2 : t = r
            · have htll : tl = l := hiff.mp htr2
              subst htll
              subst htr2
              have hpos : 1 ≤ List.count tl ls := List.one_le_count_iff.mpr hm
              have he : List.count tl (ls.erase tl) = List.count tl ls - 1 :=
                List.count_erase_self tl ls
              have hcr : List.count t (t :: ts) = List.count t ts + 1 := by
                simp [List.count_cons]
              rw [hcr]
              omega
            · have htll : tl ≠ l := fun he => htr2 (hiff.mpr he)
              have he : List.count l (ls.erase tl) = List.count l ls :=
                List.count_erase_of_ne (fun he => htll he.symm) ls
              have hcr : List.count r (t :: ts) = List.count r ts :=
                List.count_cons_of_ne (fun he => htr2 he.symm) ts
              rw [hcr]
              omega
          · rw [pushedR_cons_true ts (pushesR_rkey_not_mem htl hm), lsStep_rkey_not_mem htl hm,
              hcl]
            have IH := countInv hpair ts ls
            by_cases htr2 : t = r
            · subst htr2
              have hcr : List.count t (t :: ts) = List.count t ts + 1 := by
                simp [List.count_cons]
              have hpp : List.count t (pushedR ls ts ++ [t])
                  = List.count t (pushedR ls ts) + 1 := by
                simp
              rw [hcr, hpp]
              omega
            · have hcr : List.count r (t :: ts) = List.count r ts :=
                List.count_cons_of_ne (fun he => htr2 he.symm) ts
              have hpp : List.count r (pushedR ls ts ++ [t])
                  = List.count r (pushedR ls ts) := by
                have hz : List.count r [t] = 0 := by
                  simp [List.count_cons, htr2]
                rw [List.count_append, hz]
                omega
              rw [hcr, hpp]
              omega
        | none =>
          have hL : isLKey t = false := by simp [isLKey, htr]
          have hR : isRKey t = false := by simp [isRKey, htl]
          rw [pushedR_cons_false ts (pushesR_other hL hR hq), lsStep_other hL hR hq]
          have IH := countInv hpair ts ls
          have htnl : l ≠ t := by
            intro he
            subst he
            rw [hf.2.2.1] at hL
            exact absurd hL (by simp)
          have htnr : r ≠ t := by
            intro he
            subst he
            rw [hf.2.2.2.2.2.1] at hR
            exact absurd hR (by simp)
          have hcl : List.count l (t :: ts) = List.count l ts :=
            List.count_cons_of_ne htnl ts
          have hcr : List.count r (t :: ts) = List.count r ts :=
            List.count_cons_of_ne htnr ts
          rw [hcl, hcr]
          omega
/-! ## Parity invariant for the symmetric quote -/

lemma quoteInv :
    ∀ (text ls : List String),
      List.count "\"" (scanL ls text) % 2
        = (List.count "\"" ls + List.count "\"" text) % 2
  | [], ls => by simp [scanL]
  | t :: ts, ls => by
    rw [scanL_cons]
    by_cases hq : t = "\""
    · subst hq
      have hc : List.count "\"" ("\"" :: ts) = List.count "\"" ts + 1 := by
        simp [List.count_cons]
      rw [hc]
      by_cases hm : "\"" ∈ ls
      · have IH := quoteInv ts (ls.erase "\"")
        rw [lsStep_quote_mem hm]
        have hpos : 1 ≤ List.count "\"" ls := List.one_le_count_iff.mpr hm
        have he : List.count "\"" (ls.erase "\"") = List.count "\"" ls - 1 :=
          List.count_erase_self _ ls
        omega
      · have IH := quoteInv ts ("\"" :: ls)
        rw [lsStep_quote_not_mem hm]
        have he : List.count "\"" ("\"" :: ls) = List.count "\"" ls + 1 := by
          simp [List.count_cons]
        omega
    · have hc : List.count "\"" (t :: ts) = List.count "\"" ts :=
        List.count_cons_of_ne (fun he => hq he.symm) ts
      rw [hc]
      cases htr : toRightOpt t with
      | some tr =>
        have hL : isLKey t = true := by simp [isLKey, htr]
        rw [lsStep_lkey hL]
        have IH := quoteInv ts (t :: ls)
        have he : List.count "\"" (t :: ls) = List.count "\"" ls :=
          List.count_cons_of_ne (fun he => hq he.symm) ls
        omega
      | none =>
        cases htl : toLeftOpt t with
        | some tl =>
          have hnq : tl ≠ "\"" := by
            rcases toLeftOpt_eq_some htl with ⟨h1, h2⟩ | ⟨h1, h2⟩ | ⟨h1, h2⟩ | ⟨h1, h2⟩ <;>
              subst h2 <;> decide
          by_cases hm : tl ∈ ls
          · rw [lsStep_rkey_mem htl hm]
            have IH := quoteInv ts (ls.erase tl)
            have he : List.count "\"" (ls.erase tl) = List.count "\"" ls :=
              List.count_erase_of_ne (fun he2 => hnq he2.symm) ls
            omega
          · rw [lsStep_rkey_not_mem htl hm]
            exact quoteInv ts ls
        | none =>
          have hL : isLKey t = false := by simp [isLKey, htr]
          have hR : isRKey t = false := by simp [isRKey, htl]
          rw [lsStep_other hL hR hq]
          exact quoteInv ts ls

/-! ## Counting the repair tokens -/

lemma toLeft_eq_iff {l r p : String} (hpair : toRightOpt l = some r)
    (hp : isRKey p = true) : toLeft p = l ↔ p = r := by
  cases htl : toLeftOpt p with
  | none => simp [isRKey, htl] at hp
  | some pl =>
    rw [rkey_toLeft htl]
    constructor
    · intro he
      subst he
      have hinv := pair_inverse' htl
      rw [hpair] at hinv
      exact (Option.some_inj.mp hinv).symm
    · intro he
      subst he
      have hinv := pair_inverse hpair
      rw [htl] at hinv
      exact Option.some_inj.mp hinv

lemma toRight_eq_iff {l r a : String} (hpair : toRightOpt l = some r)
    (ha : isLKey a = true) : toRight a = r ↔ a = l := by
  cases htr : toRightOpt a with
  | none => simp [isLKey, htr] at ha
  | some ar =>
    rw [lkey_toRight htr]
    constructor
    · intro he
      subst he
      have hinv := pair_inverse htr
      rw [pair_inverse hpair] at hinv
      exact (Option.some_inj.mp hinv).symm
    · intro he
      subst he
      rw [hpair] at htr
      exact (Option.some_inj.mp htr).symm

lemma count_mapToLeft {l r : String} (hpair : toRightOpt l = some r) :
    ∀ (P : List String), (∀ p ∈ P, isRKey p = true) →
      List.count l (P.map toLeft) = List.count r P
  | [], _ => by simp
  | p :: ps, h => by
    have hp : isRKey p = true := h p (List.mem_cons_self p ps)
    have hrec :=
      count_mapToLeft hpair ps (fun q hq => h q (List.mem_cons_of_mem p hq))
    rw [List.map_cons, List.count_cons, List.count_cons, hrec]
    have hiff := toLeft_eq_iff hpair hp
    by_cases he : p = r
    · have h1 : toLeft r = l := by
        rw [← he]
        exact hiff.mpr he
      simp [he, h1]
    · have hne : toLeft p ≠ l := fun hx => he (hiff.mp hx)
      simp [he, hne]

lemma count_mapToLeft_zero {s : String} (hs : isLKey s = false) :
    ∀ (P : List String), (∀ p ∈ P, isRKey p = true) →
      List.count s (P.map toLeft) = 0
  | [], _ => by simp
  | p :: ps, h => by
    have hp : isRKey p = true := h p (List.mem_cons_self p ps)
    have hl := toLeft_lkey_of_rkey hp
    have hne : toLeft p ≠ s := by
      intro he
      rw [he, hs] at hl
      exact absurd hl (by simp)
    rw [List.map_cons, List.count_cons,
      count_mapToLeft_zero hs ps (fun q hq => h q (List.mem_cons_of_mem p hq))]
    simp [hne]

lemma count_mapToRight {l r : String} (hpair : toRightOpt l = some r) :
    ∀ (L : List String), (∀ a ∈ L, isLKey a = true ∨ a = "\"") →
      List.count r (L.map toRight) = List.count l L
  | [], _ => by simp
  | a :: as1, h => by
    have hf := lkey_facts hpair
    have hrec :=
      count_mapToRight hpair as1 (fun q hq => h q (List.mem_cons_of_mem a hq))
    rw [List.map_cons, List.count_cons, List.count_cons, hrec]
    rcases h a (List.mem_cons_self a as1) with ha | ha
    · have hiff := toRight_eq_iff hpair ha
      by_cases he : a = l
      · have h1 : toRight l = r := by
          rw [← he]
          exact hiff.mpr he
        simp [he, h1]
      · have hne : toRight a ≠ r := fun hx => he (hiff.mp hx)
        simp [he, hne]
    · subst ha
      have h1 : toRight "\"" = "\"" := by decide
      rw [h1]
      simp [Ne.symm hf.2.1, Ne.symm hf.1]

lemma count_mapToRight_zero {s : String} (h1 : isRKey s = false) (h2 : s ≠ "\"") :
    ∀ (L : List String), (∀ a ∈ L, isLKey a = true ∨ a = "\"") →
      List.count s (L.map toRight) = 0
  | [], _ => by simp
  | a :: as1, h => by
    have hrec :=
      count_mapToRight_zero h1 h2 as1 (fun q hq => h q (List.mem_cons_of_mem a hq))
    rw [List.map_cons, List.count_cons, hrec]
    rcases h a (List.mem_cons_self a as1) with ha | ha
    · have hr := toRight_rkey_of_lkey ha
      have hne : toRight a ≠ s := by
        intro he
        rw [he, h1] at hr
        exact absurd hr (by simp)
      simp [hne]
    · subst ha
      have hq : toRight "\"" = "\"" := by decide
      rw [hq]
      simp [Ne.symm h2]

lemma count_quote_mapToRight :
    ∀ (L : List String), (∀ a ∈ L, isLKey a = true ∨ a = "\"") →
      List.count "\"" (L.map toRight) = List.count "\"" L
  | [], _ => by simp
  | a :: as1, h => by
    have hrec :=
      count_quote_mapToRight as1 (fun q hq => h q (List.mem_cons_of_mem a hq))
    rw [List.map_cons, List.count_cons, List.count_cons, hrec]
    rcases h a (List.mem_cons_self a as1) with ha | ha
    · have hr := toRight_rkey_of_lkey ha
      have hn1 : toRight a ≠ "\"" := rkey_ne_quote hr
      have hn2 : a ≠ "\"" := lkey_ne_quote ha
      simp [hn1, hn2]
    · subst ha
      have hq : toRight "\"" = "\"" := by decide
      rw [hq]

/-! ## The balance guarantees, per family -/

lemma balance_count_pair {l r : String} (hpair : toRightOpt l = some r)
    (x : List String) :
    List.count l (balance_parentheses x) = List.count r (balance_parentheses x) := by
  have hf := lkey_facts hpair
  rw [balance_closed]
  have hP : ∀ p ∈ pushedR [] x, isRKey p = true :=
    fun p hp => pushedR_entries x [] p hp
  have hL : ∀ a ∈ scanL [] x, isLKey a = true ∨ a = "\"" := by
    intro a ha
    rcases scanL_entries x [] a ha with h | h
    · exact absurd h (List.not_mem_nil a)
    · exact h
  have e1 : List.count l (((pushedR [] x).map toLeft).reverse)
      = List.count r (pushedR [] x) := by
    rw [List.count_reverse]
    exact count_mapToLeft hpair _ hP
  have e2 : List.count r (((pushedR [] x).map toLeft).reverse) = 0 := by
    rw [List.count_reverse]
    exact count_mapToLeft_zero hf.2.2.2.2.1 _ hP
  have e3 : List.count l ((scanL [] x).map toRight) = 0 :=
    count_mapToRight_zero hf.2.2.2.1 hf.1 _ hL
  have e4 : List.count r ((scanL [] x).map toRight) = List.count l (scanL [] x) :=
    count_mapToRight hpair _ hL
  have hcnt := countInv hpair x []
  simp only [List.count_nil] at hcnt
  simp only [List.count_append, e1, e2, e3, e4]
  omega

lemma balance_count_quote (x : List String) :
    List.count "\"" (balance_parentheses x) % 2 = 0 := by
  rw [balance_closed]
  have hP : ∀ p ∈ pushedR [] x, isRKey p = true :=
    fun p hp => pushedR_entries x [] p hp
  have hL : ∀ a ∈ scanL [] x, isLKey a = true ∨ a = "\"" := by
    intro a ha
    rcases scanL_entries x [] a ha with h | h
    · exact absurd h (List.not_mem_nil a)
    · exact h
  have e1 : List.count "\"" (((pushedR [] x).map toLeft).reverse) = 0 := by
    rw [List.count_reverse]
    exact count_mapToLeft_zero (by decide) _ hP
  have e2 : List.count "\"" ((scanL [] x).map toRight)
      = List.count "\"" (scanL [] x) :=
    count_quote_mapToRight _ hL
  have hq := quoteInv x []
  simp only [List.count_nil] at hq
  simp only [List.count_append, e1, e2]
  omega

/-! ## Re-scanning balanced output: the simulation argument

Scanning the same text from a left stack enlarged by exactly the left
counterparts of the unmatched right brackets pushes nothing onto the right
stack and ends with the same symbol counts. -/

lemma scanSim :
    ∀ (text ls1 ls2 : List String),
      (∀ s, List.count s ls2
          = List.count s ls1 + List.count s ((pushedR ls1 text).map toLeft)) →
      pushedR ls2 text = [] ∧
        ∀ s, List.count s (scanL ls2 text) = List.count s (scanL ls1 text)
  | [], ls1, ls2, hyp => by
    refine ⟨by simp [pushedR], fun s => ?_⟩
    have h := hyp s
    simp only [pushedR, List.map_nil, List.count_nil, Nat.add_zero] at h
    simpa [scanL] using h
  | t :: ts, ls1, ls2, hyp => by
    have hRent : ∀ p ∈ pushedR (lsStep ls1 t) ts, isRKey p = true :=
      fun p hp => pushedR_entries ts _ p hp
    have main : pushesR ls2 t = false ∧
        (∀ s, List.count s (lsStep ls2 t)
            = List.count s (lsStep ls1 t)
              + List.count s ((pushedR (lsStep ls1 t) ts).map toLeft)) := by
      by_cases hq : t = "\""
      · subst hq
        have hyp' : ∀ s, List.count s ls2
            = List.count s ls1
              + List.count s ((pushedR (lsStep ls1 "\"") ts).map toLeft) := by
          intro s
          have h := hyp s
          rw [pushedR_cons_false ts (pushesR_quote ls1)] at h
          exact h
        have hq0 : List.count "\"" ((pushedR (lsStep ls1 "\"") ts).map toLeft) = 0 :=
          count_mapToLeft_zero (by decide) _ hRent
        by_cases hm : "\"" ∈ ls1
        · have hpos1 : 1 ≤ List.count "\"" ls1 := List.one_le_count_iff.mpr hm
          have hm2 : "\"" ∈ ls2 := by
            apply List.one_le_count_iff.mp
            have h := hyp' "\""
            omega
          refine ⟨pushesR_quote ls2, fun s => ?_⟩
          rw [lsStep_quote_mem hm] at hyp' hq0 ⊢
          rw [lsStep_quote_mem hm2]
          by_cases hs : s = "\""
          · subst hs
            have e1 : List.count "\"" (ls1.erase "\"") = List.count "\"" ls1 - 1 :=
              List.count_erase_self _ ls1
            have e2 : List.count "\"" (ls2.erase "\"") = List.count "\"" ls2 - 1 :=
              List.count_erase_self _ ls2
            have h := hyp' "\""
            omega
          · have e1 : List.count s (ls1.erase "\"") = List.count s ls1 :=
              List.count_erase_of_ne hs ls1
            have e2 : List.count s (ls2.erase "\"") = List.count s ls2 :=
              List.count_erase_of_ne hs ls2
            rw [e1, e2]
            exact hyp' s
        · have hz1 : List.count "\"" ls1 = 0 := by
            rw [List.count_eq_zero]
            exact hm
          have hm2 : "\"" ∉ ls2 := by
            rw [← List.count_eq_zero]
            have h := hyp' "\""
            omega
          refine ⟨pushesR_quote ls2, fun s => ?_⟩
          rw [lsStep_quote_not_mem hm] at hyp' hq0 ⊢
          rw [lsStep_quote_not_mem hm2]
          by_cases hs : s = "\""
          · subst hs
            have e1 : List.count "\"" ("\"" :: ls1) = List.count "\"" ls1 + 1 := by
              simp [List.count_cons]
            have e2 : List.count "\"" ("\"" :: ls2) = List.count "\"" ls2 + 1 := by
              simp [List.count_cons]
            have h := hyp' "\""
            omega
          · have e1 : List.count s ("\"" :: ls1) = List.count s ls1 :=
              List.count_cons_of_ne hs ls1
            have e2 : List.count s ("\"" :: ls2) = List.count s ls2 :=
              List.count_cons_of_ne hs ls2
            rw [e1, e2]
            exact hyp' s
      · cases htr : toRightOpt t with
        | some tr =>
          have hL : isLKey t = true := by simp [isLKey, htr]
          have hyp' : ∀ s, List.count s ls2
              = List.count s ls1
                + List.count s ((pushedR (lsStep ls1 t) ts).map toLeft) := by
            intro s
            have h := hyp s
            rw [pushedR_cons_false ts (pushesR_lkey hL)] at h
            exact h
          refine ⟨pushesR_lkey hL, fun s => ?_⟩
          rw [lsStep_lkey hL] at hyp' ⊢
          rw [lsStep_lkey hL]
          by_cases hs : s = t
          · subst hs
            have e1 : List.count s (s :: ls1) = List.count s ls1 + 1 := by
              simp [List.count_cons]
            have e2 : List.count s (s :: ls2) = List.count s ls2 + 1 := by
              simp [List.count_cons]
            have h := hyp' s
            omega
          · have hs' : s ≠ t := hs
            have e1 : List.count s (t :: ls1) = List.count s ls1 :=
              List.count_cons_of_ne hs' ls1
            have e2 : List.count s (t :: ls2) = List.count s ls2 :=
              List.count_cons_of_ne hs' ls2
            rw [e1, e2]
            exact hyp' s
        | none =>
          cases htl : toLeftOpt t with
          | some tl =>
            by_cases hm : tl ∈ ls1
            · have hyp' : ∀ s, List.count s ls2
                  = List.count s ls1
                    + List.count s ((pushedR (lsStep ls1 t) ts).map toLeft) := by
                intro s
                have h := hyp s
                rw [pushedR_cons_false ts (pushesR_rkey_mem htl hm)] at h
                exact h
              have hpos1 : 1 ≤ List.count tl ls1 := List.one_le_count_iff.mpr hm
              have hm2 : tl ∈ ls2 := by
                apply List.one_le_count_iff.mp
                have h := hyp' tl
                omega
              refine ⟨pushesR_rkey_mem htl hm2, fun s => ?_⟩
              rw [lsStep_rkey_mem htl hm] at hyp' ⊢
              rw [lsStep_rkey_mem htl hm2]
              by_cases hs : s = tl
              · subst hs
                have e1 : List.count s (ls1.erase s) = List.count s ls1 - 1 :=
                  List.count_erase_self s ls1
                have e2 : List.count s (ls2.erase s) = List.count s ls2 - 1 :=
                  List.count_erase_self s ls2
                have hpos2 : 1 ≤ List.count s ls2 := List.one_le_count_iff.mpr hm2
                have h := hyp' s
                omega
              · have e1 : List.count s (ls1.erase tl) = List.count s ls1 :=
                  List.count_erase_of_ne hs ls1
                have e2 : List.count s (ls2.erase tl) = List.count s ls2 :=
                  List.count_erase_of_ne hs ls2
                rw [e1, e2]
                exact hyp' s
            · have hyp' : ∀ s, List.count s ls2
                  = List.count s ls1
                    + (List.count s ((pushedR (lsStep ls1 t) ts).map toLeft)
                        + List.count s [tl]) := by
                intro s
                have h := hyp s
                rw [pushedR_cons_true ts (pushesR_rkey_not_mem htl hm),
                  List.map_append, List.count_append] at h
                simpa [rkey_toLeft htl] using h
              have hz1 : List.count tl ls1 = 0 := by
                rw [List.count_eq_zero]
                exact hm
              have hm2 : tl ∈ ls2 := by
                apply List.one_le_count_iff.mp
                have h := hyp' tl
                have e : List.count tl [tl] = 1 := by simp
                omega
              refine ⟨pushesR_rkey_mem htl hm2, fun s => ?_⟩
              rw [lsStep_rkey_not_mem htl hm] at hyp' ⊢
              rw [lsStep_rkey_mem htl hm2]
              by_cases hs : s = tl
              · subst hs
                have e2 : List.count s (ls2.erase s) = List.count s ls2 - 1 :=
                  List.count_erase_self s ls2
                have e : List.count s [s] = 1 := by simp
                have h := hyp' s
                omega
              · have e2 : List.count s (ls2.erase tl) = List.count s ls2 :=
                  List.count_erase_of_ne hs ls2
                have e : List.count s [tl] = 0 := by
                  simp [List.count_cons]
                  exact fun he => hs he.symm
                have h := hyp' s
                omega
          | none =>
            have hL : isLKey t = false := by simp [isLKey, htr]
            have hR : isRKey t = false := by simp [isRKey, htl]
            have hyp' : ∀ s, List.count s ls2
                = List.count s ls1
                  + List.count s ((pushedR (lsStep ls1 t) ts).map toLeft) := by
              intro s
              have h := hyp s
              rw [pushedR_cons_false ts (pushesR_other hL hR hq)] at h
              exact h
            refine ⟨pushesR_other hL hR hq, fun s => ?_⟩
            rw [lsStep_other hL hR hq] at hyp' ⊢
            rw [lsStep_other hL hR hq]
            exact hyp' s
    obtain ⟨hpush2, hyp'⟩ := main
    obtain ⟨hp, hc⟩ := scanSim ts (lsStep ls1 t) (lsStep ls2 t) hyp'
    refine ⟨?_, fun s => ?_⟩
    · rw [pushedR_cons_false ts hpush2]
      exact hp
    · rw [scanL_cons, scanL_cons]
      exact hc s

lemma scanL_append (u v ls : List String) :
    scanL ls (u ++ v) = scanL (scanL ls u) v := by
  simp [scanL, List.foldl_append]

lemma pushedR_append :
    ∀ (u v ls : List String),
      pushedR ls (u ++ v) = pushedR (scanL ls u) v ++ pushedR ls u
  | [], v, ls => by simp [scanL, pushedR]
  | t :: ts, v, ls => by
    rw [List.cons_append, pushedR_cons, pushedR_cons,
      pushedR_append ts v (lsStep ls t), scanL_cons]
    simp [List.append_assoc]

lemma scanL_lkeys :
    ∀ (xs ls : List String), (∀ a ∈ xs, isLKey a = true) →
      scanL ls xs = xs.reverse ++ ls ∧ pushedR ls xs = []
  | [], ls, _ => by simp [scanL, pushedR]
  | a :: xs, ls, h => by
    have ha : isLKey a = true := h a (List.mem_cons_self a xs)
    have hrec :=
      scanL_lkeys xs (a :: ls) (fun q hq => h q (List.mem_cons_of_mem a hq))
    constructor
    · rw [scanL_cons, lsStep_lkey ha, hrec.1]
      simp
    · rw [pushedR_cons_false xs (pushesR_lkey ha), lsStep_lkey ha]
      exact hrec.2

/-- Scanning the appended right counterparts of the final left stack, from any
stack with the same symbol counts, matches every entry and ends empty. -/
lemma drain :
    ∀ (m ls : List String),
      (∀ a ∈ m, isLKey a = true ∨ a = "\"") →
      (∀ s, List.count s ls = List.count s m) →
      pushedR ls (m.map toRight) = [] ∧
        ∀ s, List.count s (scanL ls (m.map toRight)) = 0
  | [], ls, _, hc => by
    refine ⟨by simp [pushedR], fun s => ?_⟩
    have h := hc s
    simpa [scanL] using h
  | a :: m, ls, hent, hc => by
    have hcnt : List.count a (a :: m) = List.count a m + 1 := by
      simp [List.count_cons]
    have hpos : 1 ≤ List.count a ls := by
      have h := hc a
      omega
    have hmem : a ∈ ls := List.one_le_count_iff.mp hpos
    have hc' : ∀ s, List.count s (ls.erase a) = List.count s m := by
      intro s
      by_cases hs : s = a
      · subst hs
        have e1 : List.count s (ls.erase s) = List.count s ls - 1 :=
          List.count_erase_self s ls
        have h := hc s
        omega
      · have e1 : List.count s (ls.erase a) = List.count s ls :=
          List.count_erase_of_ne hs ls
        have e2 : List.count s (a :: m) = List.count s m :=
          List.count_cons_of_ne hs m
        have h := hc s
        omega
    have hrec :=
      drain m (ls.erase a) (fun q hq => hent q (List.mem_cons_of_mem a hq)) hc'
    have hstep : lsStep ls (toRight a) = ls.erase a ∧
        pushesR ls (toRight a) = false := by
      rcases hent a (List.mem_cons_self a m) with ha | ha
      · cases htr : toRightOpt a with
        | none => simp [isLKey, htr] at ha
        | some ar =>
          have htl : toLeftOpt ar = some a := pair_inverse htr
          rw [lkey_toRight htr]
          exact ⟨lsStep_rkey_mem htl hmem, pushesR_rkey_mem htl hmem⟩
      · subst ha
        have htok : toRight "\"" = "\"" := by decide
        rw [htok]
        exact ⟨lsStep_quote_mem hmem, pushesR_quote ls⟩
    rw [List.map_cons]
    constructor
    · rw [pushedR_cons_false _ hstep.2, hstep.1]
      exact hrec.1
    · intro s
      rw [scanL_cons, hstep.1]
      exact hrec.2 s

lemma eq_nil_of_count_zero {ls : List String} (h : ∀ s, List.count s ls = 0) :
    ls = [] := by
  cases ls with
  | nil => rfl
  | cons a t =>
    have h1 := h a
    have h2 : List.count a (a :: t) = List.count a t + 1 := by
      simp [List.count_cons]
    omega

/-- The output of the balancer scans to empty stacks: it is fully balanced. -/
lemma balance_scan_empty (x : List String) :
    scanL [] (balance_parentheses x) = [] ∧
      pushedR [] (balance_parentheses x) = [] := by
  have hP : ∀ p ∈ pushedR [] x, isRKey p = true :=
    fun p hp => pushedR_entries x [] p hp
  have hLent : ∀ a ∈ scanL [] x, isLKey a = true ∨ a = "\"" := by
    intro a ha
    rcases scanL_entries x [] a ha with h | h
    · exact absurd h (List.not_mem_nil a)
    · exact h
  have hApre : ∀ a ∈ ((pushedR [] x).map toLeft).reverse, isLKey a = true := by
    intro a ha
    rw [List.mem_reverse] at ha
    rcases List.mem_map.mp ha with ⟨p, hp, he⟩
    rw [← he]
    exact toLeft_lkey_of_rkey (hP p hp)
  have hAscan := scanL_lkeys (((pushedR [] x).map toLeft).reverse) [] hApre
  have hAL : scanL [] (((pushedR [] x).map toLeft).reverse)
      = (pushedR [] x).map toLeft := by
    rw [hAscan.1]
    simp
  have hsim := scanSim x [] ((pushedR [] x).map toLeft)
    (fun s => by simp [scanL])
  have hdr := drain (scanL [] x) (scanL ((pushedR [] x).map toLeft) x)
    hLent hsim.2
  have hbal := balance_closed x
  constructor
  · rw [hbal, scanL_append, scanL_append, hAL]
    exact eq_nil_of_count_zero hdr.2
  · rw [hbal, pushedR_append, pushedR_append, scanL_append, hAL, hAscan.2,
      hsim.1, hdr.1]
    simp

/-! ## Round-trip of the span decoder -/

lemma flatten_dropLast_append :
    ∀ (spans : List (List String)) (last : List String) (t : String),
      spans.getLast? = some last →
      (spans.dropLast ++ [last ++ [t]]).flatten = spans.flatten ++ [t]
  | [], last, t, h => by simp at h
  | [a], last, t, h => by
    simp only [List.getLast?_singleton, Option.some_inj] at h
    subst h
    simp
  | a :: b :: rest, last, t, h => by
    rw [List.getLast?_cons_cons] at h
    have hrec := flatten_dropLast_append (b :: rest) last t h
    simp only [List.dropLast_cons₂, List.cons_append, List.flatten_cons, hrec,
      List.append_assoc]

lemma addSpanTok_flatten :
    ∀ (m : AspectMap) (a t : String) (sn : Bool) (m' : AspectMap) (c : String),
      addSpanTok m a t sn = some m' →
      (mentionsOf m' c).flatten
        = (mentionsOf m c).flatten ++ (if c = a then [t] else [])
  | [], a, t, sn, m', c, h => by
    cases sn with
    | false => simp [addSpanTok] at h
    | true =>
      simp only [addSpanTok] at h
      rw [if_pos trivial] at h
      simp only [Option.some_inj] at h
      subst h
      by_cases hc : a = c
      · subst hc
        simp [mentionsOf]
      · have hcn : ¬ c = a := fun he => hc he.symm
        simp [mentionsOf, hc, hcn]
  | (k, spans) :: rest, a, t, sn, m', c, h => by
    simp only [addSpanTok] at h
    by_cases hk : k = a
    · rw [if_pos hk] at h
      cases sn with
      | true =>
        rw [if_pos rfl] at h
        simp only [Option.some_inj] at h
        subst h
        by_cases hc : k = c
        · have hca : c = a := hc.symm.trans hk
          simp [mentionsOf, hc, hca]
        · have hcna : ¬ c = a := by
            intro he
            exact hc (hk.trans he.symm)
          simp [mentionsOf, hc, hcna]
      | false =>
        rw [if_neg Bool.false_ne_true] at h
        cases hlast : spans.getLast? with
        | none => rw [hlast] at h; simp at h
        | some last =>
          rw [hlast] at h
          simp only [Option.some_inj] at h
          subst h
          by_cases hc : k = c
          · have hca : c = a := hc.symm.trans hk
            simp [mentionsOf, hc, hca, flatten_dropLast_append spans last t hlast]
          · have hcna : ¬ c = a := by
              intro he
              exact hc (hk.trans he.symm)
            simp [mentionsOf, hc, hcna]
    · rw [if_neg hk] at h
      cases hrec : addSpanTok rest a t sn with
      | none => rw [hrec] at h; simp at h
      | some r =>
        rw [hrec] at h
        simp at h
        subst h
        have ih := addSpanTok_flatten rest a t sn r c hrec
        by_cases hc : k = c
        · have hcna : ¬ c = a := by
            intro he
            exact hk (hc.trans he)
          simp [mentionsOf, hc, hcna]
        · simp [mentionsOf, hc, ih]

lemma foldlM_addSpanTok_flatten :
    ∀ (aspects : List String) (f : String → Bool) (t : String)
      (m m' : AspectMap) (c : String),
      aspects.foldlM (fun acc asp => addSpanTok acc asp t (f asp)) m = some m' →
      (mentionsOf m' c).flatten
        = (mentionsOf m c).flatten ++ List.replicate (aspects.count c) t
  | [], f, t, m, m', c, h => by
    simp only [List.foldlM_nil, pure, Option.some_inj] at h
    subst h
    simp
  | a :: rest, f, t, m, m', c, h => by
    rw [List.foldlM_cons] at h
    cases h1 : addSpanTok m a t (f a) with
    | none => rw [h1] at h; simp at h
    | some m1 =>
      rw [h1] at h
      simp only [Option.bind_eq_bind, Option.some_bind] at h
      have e1 := addSpanTok_flatten m a t (f a) m1 c h1
      have e2 := foldlM_addSpanTok_flatten rest f t m1 m' c h
      rw [e2, e1, List.append_assoc, List.count_cons]
      congr 1
      by_cases hc : c = a
      · subst hc
        simp [List.replicate_succ]
      · have hne : (a == c) = false := by
          simp
          exact fun he => hc he.symm
        simp [hc, hne]

lemma extractGo_flatten :
    ∀ (rest : List (String × String)) (prev : String) (m m' : AspectMap)
      (c : String),
      extractGo prev m rest = some m' →
      (mentionsOf m' c).flatten
        = (mentionsOf m c).flatten
          ++ rest.flatMap
            (fun p => List.replicate ((splitAspects p.2).count c) p.1)
  | [], prev, m, m', c, h => by
    simp only [extractGo, Option.some_inj] at h
    subst h
    simp
  | (tok, lbl) :: rest, prev, m, m', c, h => by
    simp only [extractGo] at h
    cases h1 : decodeStep prev m tok lbl with
    | none => rw [h1] at h; simp at h
    | some m1 =>
      rw [h1] at h
      simp only [decodeStep] at h1
      have e1 := foldlM_addSpanTok_flatten (splitAspects lbl)
        (fun asp => !(isSubstr asp prev)) tok m m1 c h1
      have e2 := extractGo_flatten rest lbl m1 m' c h
      rw [e2, e1, List.append_assoc]
      simp

lemma flatMap_replicate_filter :
    ∀ (result : List (String × String)) (c : String),
      (∀ p ∈ result, (splitAspects p.2).Nodup) →
      result.flatMap (fun p => List.replicate ((splitAspects p.2).count c) p.1)
        = (result.filter (fun p => decide (c ∈ splitAspects p.2))).map Prod.fst
  | [], c, _ => by simp
  | p :: rest, c, h => by
    have hrec :=
      flatMap_replicate_filter rest c (fun q hq => h q (List.mem_cons_of_mem p hq))
    have hnd := h p (List.mem_cons_self p rest)
    rw [List.flatMap_cons, hrec]
    by_cases hm : c ∈ splitAspects p.2
    · have hcnt : (splitAspects p.2).count c = 1 :=
        List.count_eq_one_of_mem hnd hm
      rw [hcnt]
      simp [List.filter_cons, hm]
    · have hcnt : (splitAspects p.2).count c = 0 :=
        List.count_eq_zero_of_not_mem hm
      rw [hcnt]
      simp [List.filter_cons, hm]

/-! ## Detokenizer as a separator state machine -/

lemma detokGo_eq_detokSpec :
    ∀ (text : List String) (sep : String), detokGo sep text = detokSpec sep text
  | [], _ => rfl
  | t :: ts, sep => by
    simp only [detokGo, detokSpec, emittedSep, nextSep]
    by_cases hp : isSubstr t UNPAIRED_PUNCT ∨ isRKey t
    · rw [if_pos hp, if_pos hp, if_pos hp, detokGo_eq_detokSpec ts sep]
      simp
    · rw [if_neg hp, if_neg hp, if_neg hp,
        detokGo_eq_detokSpec ts (if isLKey t then "" else " ")]

lemma str_eq_empty_iff (u : String) : u = "" ↔ u.data = [] := by
  constructor
  · intro h
    rw [h]
  · intro h
    cases u with
    | mk d =>
      simp at h
      simp [h]

/-! ## Claim theorems -/

/-- C1: the spec's continuation law says token *i* extends an open span of
category *c* iff *c* is in the decoded label set of both token *i* and token
*i-1* (the sentinel `"O"` decoding to the empty set).  The code instead tests
`aspect not in prev_label`, a substring test on the raw previous label
string, so after a token labelled `"Method|O"` (which itself joins no span) a
following `"Method"` token is treated as a continuation: with an earlier open
`Method` span the two mentions are merged into one span, and with no open
span the loop raises `IndexError`.  The spec's own end-to-end scenario is
still reproduced. -/
theorem extract_aspects_continuation_violated :
    extract_aspect_spans [("Метод", "Method"), (",", "O"), ("Подход", "Method|Task")]
      = some [("Method", [["Метод"], ["Подход"]]), ("Task", [["Подход"]])]
    ∧ extract_aspect_spans [("x", "Method"), ("a", "Method|O"), ("b", "Method")]
      = some [("Method", [["x", "b"]])]
    ∧ extract_aspect_spans [("a", "Method|O"), ("b", "Method")] = none :=
  ⟨by decide, by decide, by decide⟩

/-- C2 counterexample: unknown category identifiers do not always round-trip
without failure.  With labels `"XY"` then `"X"` (both outside the fixed
vocabulary) the substring continuation test `"X" in "XY"` succeeds while no
`"X"` span is open, so `extract_aspects` raises `IndexError` (modelled as
`none`). -/
theorem extract_aspects_unknown_category_crash :
    extract_aspect_spans [("a", "XY"), ("b", "X")] = none := by decide

/-- C2 (amended): unknown category identifiers are not validated and are
grouped by exactly the same rule as known ones; whenever the grouping loop
succeeds and the labels decode without duplicates, the concatenation of the
spans recorded for any category `c` — known or unknown — is exactly the
subsequence of tokens whose decoded label set contains `c`. -/
theorem extract_aspects_round_trip (result : List (String × String))
    (m : AspectMap) (c : String)
    (h : extract_aspect_spans result = some m)
    (hnd : ∀ p ∈ result, (splitAspects p.2).Nodup) :
    (mentionsOf m c).flatten
      = (result.filter (fun p => decide (c ∈ splitAspects p.2))).map Prod.fst := by
  have h1 := extractGo_flatten result "" [] m c h
  rw [flatMap_replicate_filter result c hnd] at h1
  simpa [mentionsOf] using h1

/-- Witness for C2 (amended) at a concrete sequence with the unknown
category `"Foo"`. -/
theorem extract_aspects_round_trip_witness :
    extract_aspect_spans [("a", "Foo"), ("b", "O"), ("c", "Foo")]
      = some [("Foo", [["a"], ["c"]])]
    ∧ (∀ p ∈ [("a", "Foo"), ("b", "O"), ("c", "Foo")], (splitAspects p.2).Nodup)
    ∧ (mentionsOf [("Foo", [["a"], ["c"]])] "Foo").flatten
      = (([("a", "Foo"), ("b", "O"), ("c", "Foo")].filter
          (fun p => decide ("Foo" ∈ splitAspects p.2))).map Prod.fst) :=
  ⟨by decide, by decide,
    extract_aspects_round_trip [("a", "Foo"), ("b", "O"), ("c", "Foo")]
      [("Foo", [["a"], ["c"]])] "Foo" (by decide) (by decide)⟩

/-- C3: `inflect` does choose the first parse whose part-of-speech starts
with a requested prefix, and does fall back to the original token when the
chosen parse admits no form; but when *no* parse matches, the Python loop
variable left over from `for parse in parses` is the *last* parse, not the
first one assigned by the dead statement `parse = parses[0]`.  With two
parses (noun inflecting to `"w1"`, verb inflecting to `"w2"`) and the
unmatched request `["ADJ"]`, the code returns `"w2"` where the spec requires
`"w1"`. -/
theorem inflect_uses_last_parse :
    inflect [parseNoun, parseVerb] "слово" ["ADJ"] ["nomn"] = some "w2"
    ∧ inflect [parseNoun, parseVerb] "слово" ["NOUN"] ["nomn"] = some "w1"
    ∧ inflect [parseNoForm] "слово" [] ["nomn"] = some "слово" :=
  ⟨by decide, by decide, by decide⟩

/-- C4: `balance_parentheses` is idempotent. -/
theorem balance_parentheses_idem (x : List String) :
    balance_parentheses (balance_parentheses x) = balance_parentheses x := by
  have h := balance_scan_empty x
  rw [balance_closed (balance_parentheses x), h.1, h.2]
  simp

/-- C5: in the output of `balance_parentheses` every bracket token has a
same-family partner — for each of the four pairs the number of left brackets
equals the number of right brackets, and the number of symmetric quotes is
even — and the two spec scenarios hold. -/
theorem balance_parentheses_partner_counts (x : List String) :
    List.count "(" (balance_parentheses x) = List.count ")" (balance_parentheses x)
    ∧ List.count "[" (balance_parentheses x) = List.count "]" (balance_parentheses x)
    ∧ List.count laquo (balance_parentheses x) = List.count raquo (balance_parentheses x)
    ∧ List.count "\x7b" (balance_parentheses x) = List.count "\x7d" (balance_parentheses x)
    ∧ List.count "\"" (balance_parentheses x) % 2 = 0
    ∧ balance_parentheses ["(", "пример"] = ["(", "пример", ")"]
    ∧ balance_parentheses ["пример", ")"] = ["(", "пример", ")"] :=
  ⟨balance_count_pair (by decide) x, balance_count_pair (by decide) x,
    balance_count_pair (by decide) x, balance_count_pair (by decide) x,
    balance_count_quote x, by decide, by decide⟩

/-- C6: after the scan, the output is the left counterparts of the
unmatched-closes stack prepended (iterating the stack most-recent-push
first, each one prepended at the front, hence the stack reversed at the
front) followed by the input and the right counterparts of the
unmatched-opens stack appended in stack order (most-recent-push first).
The stacks `scanStacks x` are built with `insert(0, ·)`, so their head is
the most recently pushed entry. -/
theorem balance_parentheses_repair_order (x : List String) :
    balance_parentheses x
      = (((scanStacks x).2).map toLeft).reverse ++ x
        ++ ((scanStacks x).1).map toRight := by
  rw [scanStacks_eq]
  exact balance_closed x

/-- C7 counterexample: the separator flag is *not* reset to a single space
after a punctuation token.  On `["(", ",", "a"]` the code keeps the empty
separator installed by `"("` across the comma and produces `"(,a"`, while
the claimed reset rule (modelled by `detokenize_specC7`) would produce
`"(, a"`. -/
theorem detokenize_sep_not_reset_after_punct :
    detokenize ["(", ",", "a"] = "(,a"
    ∧ detokenize_specC7 ["(", ",", "a"] = "(, a"
    ∧ detokenize ["(", ",", "a"] ≠ detokenize_specC7 ["(", ",", "a"] :=
  ⟨by decide, by decide, by decide⟩

/-- C7 (amended): `detokenize` is the separator state machine that emits no
separator before punctuation/right-bracket tokens and leaves the flag
unchanged there, resets the flag to empty after a left-bracket token and to
a single space after every other non-punctuation token (`emittedSep` /
`nextSep` / `detokSpec` spell out this rule). -/
theorem detokenize_sep_state_machine (text : List String) :
    detokenize text = detokSpec "" text :=
  detokGo_eq_detokSpec text ""

/-- C8: `process` fails exactly when the balanced, detokenized string is
empty, and otherwise returns that string with only its first character
uppercased and all remaining characters unchanged. -/
theorem process_capitalizes_first (norm : List String → List String)
    (doNorm : Bool) (text : List String) :
    (process norm doNorm text = none
      ↔ detokenize (balance_parentheses (if doNorm then norm text else text)) = "")
    ∧ ∀ (c : Char) (cs : List Char),
        (detokenize (balance_parentheses
            (if doNorm then norm text else text))).data = c :: cs →
        process norm doNorm text = some (String.mk (pyUpper c :: cs)) := by
  have key : process norm doNorm text
      = match (detokenize (balance_parentheses
          (if doNorm then norm text else text))).data with
        | [] => none
        | c :: cs => some (String.mk (pyUpper c :: cs)) := rfl
  constructor
  · rw [key, str_eq_empty_iff]
    cases hd : (detokenize (balance_parentheses
        (if doNorm then norm text else text))).data with
    | nil => simp
    | cons c cs => simp
  · intro c cs hd
    rw [key, hd]

/-- Witness for C8 at a concrete token list. -/
theorem process_capitalizes_first_witness :
    process (fun ts => ts) false ["ab"] = some "Ab" := by
  have h := (process_capitalizes_first (fun ts => ts) false ["ab"]).2
    'a' ['b'] (by decide)
  rw [h]
  decide

/-- C9: the balancer only prepends left brackets and appends right brackets
or quotes around the unchanged input: no input token is removed, rewritten
or reordered. -/
theorem balance_parentheses_preserves_input (x : List String) :
    ∃ pre post, balance_parentheses x = pre ++ x ++ post
      ∧ (∀ p ∈ pre, isLKey p = true)
      ∧ (∀ p ∈ post, isRKey p = true ∨ p ∈ SYMM_QUOTES) := by
  refine ⟨((pushedR [] x).map toLeft).reverse, (scanL [] x).map toRight,
    balance_closed x, ?_, ?_⟩
  · intro p hp
    rw [List.mem_reverse] at hp
    rcases List.mem_map.mp hp with ⟨q, hq, he⟩
    rw [← he]
    exact toLeft_lkey_of_rkey (pushedR_entries x [] q hq)
  · intro p hp
    rcases List.mem_map.mp hp with ⟨q, hq, he⟩
    rcases scanL_entries x [] q hq with h | h
    · exact absurd h (List.not_mem_nil q)
    rcases h with h | h
    · left
      rw [← he]
      exact toRight_rkey_of_lkey h
    · right
      rw [← he, h]
      decide

/-- Witness for C9 at a concrete unbalanced token list. -/
theorem balance_parentheses_preserves_input_witness :
    ∃ pre post, balance_parentheses ["пример", ")"] = pre ++ ["пример", ")"] ++ post
      ∧ (∀ p ∈ pre, isLKey p = true)
      ∧ (∀ p ∈ post, isRKey p = true ∨ p ∈ SYMM_QUOTES) :=
  balance_parentheses_preserves_input ["пример", ")"]

/-- C10: a label string whose pipe-split parts contain the sentinel `"O"`
assigns its token to no category at all: processing that token leaves the
accumulated aspect map unchanged, whatever other categories the label
names. -/
theorem decodeStep_sentinel_dominance (prev : String) (m : AspectMap)
    (tok lbl : String) (h : "O" ∈ splitPipe lbl) :
    decodeStep prev m tok lbl = some m := by
  simp [decodeStep, splitAspects, h, List.foldlM]

/-- Witness for C10 on the label `"Method|O"`. -/
theorem decodeStep_sentinel_dominance_witness :
    decodeStep "x" [("Method", [["tok0"]])] "tok1" "Method|O"
      = some [("Method", [["tok0"]])] :=
  decodeStep_sentinel_dominance "x" [("Method", [["tok0"]])] "tok1" "Method|O"
    (by decide)

end AspectExtractor
